import Mathlib

/-!
Verification of the serial telemetry protocol layer of this repository
(src/script.js, with the older variants in src/unnamed/part_000 and
src/unnamed/part_001).

The embedding is shallow: JavaScript byte values are modelled as Nat
(a Uint8Array element is always in 0..255), JS 16-bit wrap-around
arithmetic is explicit arithmetic modulo 65536, and the DataView float
reads of parseMessage are modelled as the raw little-endian bit
patterns they read (the decoder passes every bit pattern through
unchanged, so no numeric IEEE semantics are needed for the properties
below).  Fallible operations return Option.
-/

/-- Checksum of computeChecksum (src/script.js lines 150-157): the input is
coerced through Uint8Array.from (each element reduced mod 256) and summed
with 16-bit wrap-around, i.e. mod 65536. -/
def computeChecksum (bytes : List Nat) : Nat :=
  bytes.foldl (fun sum b => (sum + b % 256) % 65536) 0

/-- Little-endian 16-bit read, as DataView.getUint16 at a byte offset:
byte at off is the low byte.  Out-of-range reads default to 0; every use
below is guarded by a length check, exactly as in the source. -/
def readU16LE (p : List Nat) (off : Nat) : Nat :=
  p.getD off 0 + 256 * p.getD (off + 1) 0

/-- Little-endian 32-bit read (DataView.getUint32 / raw getFloat32 bits). -/
def readU32LE (p : List Nat) (off : Nat) : Nat :=
  readU16LE p off + 65536 * readU16LE p (off + 2)

/-- Little-endian 64-bit read (raw getFloat64 bits). -/
def readU64LE (p : List Nat) (off : Nat) : Nat :=
  readU32LE p off + 4294967296 * readU32LE p (off + 4)

/-- Reinterpret an unsigned 16-bit value as a signed one
(DataView.getInt16 = getUint16 then sign extension). -/
def toInt16 (v : Nat) : Int :=
  if v % 65536 < 32768 then (v % 65536 : Int) else (v % 65536 : Int) - 65536

/-- The decoded status structure produced by parseMessage in
src/script.js (lines 381-420).  The two f64 fields and the two f32
fields hold the raw little-endian bit patterns read by the DataView;
the decoder never inspects or rejects them, so the bit-pattern view is
lossless.  The three speed fields are the signed 16-bit raw values
divided by 1000.0; that division is modelled exactly, as a rational. -/
structure StatusRecord where
  id : Nat
  sync_id : Nat
  time_offset_ms : Int
  latitude : Nat
  longitude : Nat
  heading : Nat
  cov_pos : Nat
  speed_x : Rat
  speed_y : Rat
  rot_speed : Rat
  drive_mode : Nat
  aux_data_status : Nat
deriving DecidableEq

/-- parseMessage of src/script.js (lines 381-420): returns null (none)
when fewer than startOffset + 40 bytes are available, otherwise decodes
the fixed 40-byte little-endian layout.  The running DataView offset of
the source (0,2,4, skip 2, 8,16,24,28,32,34,36,38,39) is written here
as absolute offsets from startOffset. -/
def parseMessage (buf : List Nat) (startOffset : Nat) : Option StatusRecord :=
  if buf.length < startOffset + 40 then none
  else
    some {
      id := readU16LE buf startOffset
      sync_id := readU16LE buf (startOffset + 2)
      time_offset_ms := toInt16 (readU16LE buf (startOffset + 4))
      latitude := readU64LE buf (startOffset + 8)
      longitude := readU64LE buf (startOffset + 16)
      heading := readU32LE buf (startOffset + 24)
      cov_pos := readU32LE buf (startOffset + 28)
      speed_x := (toInt16 (readU16LE buf (startOffset + 32)) : Rat) / 1000
      speed_y := (toInt16 (readU16LE buf (startOffset + 34)) : Rat) / 1000
      rot_speed := (toInt16 (readU16LE buf (startOffset + 36)) : Rat) / 1000
      drive_mode := buf.getD (startOffset + 38) 0
      aux_data_status := buf.getD (startOffset + 39) 0 }

namespace V0

/-- The decoded status structure of the older variant in
src/unnamed/part_000 (parseMessage there, lines 321-359): identical
layout, but the three speed fields are returned as the raw signed
16-bit integers, with no division by 1000. -/
structure StatusRecord where
  id : Nat
  sync_id : Nat
  time_offset_ms : Int
  latitude : Nat
  longitude : Nat
  heading : Nat
  cov_pos : Nat
  speed_x : Int
  speed_y : Int
  rot_speed : Int
  drive_mode : Nat
  aux_data_status : Nat
deriving DecidableEq

/-- parseMessage of src/unnamed/part_000: same guard and layout as the
src/script.js decoder, but speed_x, speed_y and rot_speed are the raw
getInt16 values (the source lines 340-342 do not divide by 1000). -/
def parseMessage (buf : List Nat) (startOffset : Nat) : Option StatusRecord :=
  if buf.length < startOffset + 40 then none
  else
    some {
      id := readU16LE buf startOffset
      sync_id := readU16LE buf (startOffset + 2)
      time_offset_ms := toInt16 (readU16LE buf (startOffset + 4))
      latitude := readU64LE buf (startOffset + 8)
      longitude := readU64LE buf (startOffset + 16)
      heading := readU32LE buf (startOffset + 24)
      cov_pos := readU32LE buf (startOffset + 28)
      speed_x := toInt16 (readU16LE buf (startOffset + 32))
      speed_y := toInt16 (readU16LE buf (startOffset + 34))
      rot_speed := toInt16 (readU16LE buf (startOffset + 36))
      drive_mode := buf.getD (startOffset + 38) 0
      aux_data_status := buf.getD (startOffset + 39) 0 }

end V0

section ChecksumLemmas

lemma computeChecksum_foldl (l : List Nat) (s : Nat) (hs : s < 65536) :
    List.foldl (fun sum b => (sum + b % 256) % 65536) s l
      = (s + (l.map (fun b => b % 256)).sum) % 65536 := by
  induction l generalizing s with
  | nil => simp [Nat.mod_eq_of_lt hs]
  | cons b t ih =>
      simp only [List.foldl_cons, List.map_cons, List.sum_cons]
      rw [ih ((s + b % 256) % 65536) (Nat.mod_lt _ (by norm_num))]
      rw [Nat.mod_add_mod, Nat.add_assoc]

lemma computeChecksum_eq_sum (l : List Nat) :
    computeChecksum l = ((l.map (fun b => b % 256)).sum) % 65536 := by
  unfold computeChecksum
  rw [computeChecksum_foldl l 0 (by norm_num), Nat.zero_add]

end ChecksumLemmas

/-- Claim C9: the 16-bit additive checksum distributes over
concatenation modulo 65536, and the checksum of the empty sequence
is 0. -/
theorem checksum_concat_additive (a b : List Nat) :
    computeChecksum (a ++ b) = (computeChecksum a + computeChecksum b) % 65536
      ∧ computeChecksum [] = 0 := by
  constructor
  · rw [computeChecksum_eq_sum, computeChecksum_eq_sum, computeChecksum_eq_sum,
      List.map_append, List.sum_append, Nat.add_mod]
  · rfl

/-- Claim C4: parseMessage with startOffset 0 fails (returns none)
exactly when fewer than 40 bytes are supplied; on any input of at
least 40 bytes it succeeds, never rejecting a bit pattern. -/
theorem parseMessage_none_iff_short (p : List Nat) :
    parseMessage p 0 = none ↔ p.length < 40 := by
  unfold parseMessage
  by_cases h : p.length < 0 + 40
  · simp [h]
  · simp [h]

/-- A concrete 40-byte input whose bytes at offsets 32 and 33 encode the
little-endian signed 16-bit value 1000. -/
def pC5 : List Nat :=
  [0, 0, 0, 0, 0, 0, 0, 0,
   0, 0, 0, 0, 0, 0, 0, 0,
   0, 0, 0, 0, 0, 0, 0, 0,
   0, 0, 0, 0, 0, 0, 0, 0,
   232, 3, 0, 0, 0, 0, 0, 0]

/-- Claim C5, counterexample: the parseMessage variant of
src/unnamed/part_000 (cited by the claim at lines 340-342) decodes
speed_x as the raw signed 16-bit value 1000, not as 1000 divided by
1000 as the claim asserts for every decoder. -/
theorem speed_scaling_v0_counterexample :
    (V0.parseMessage pC5 0).map V0.StatusRecord.speed_x = some 1000
      ∧ ((1000 : Int) : Rat) ≠ ((toInt16 (readU16LE pC5 32) : Int) : Rat) / 1000 := by
  constructor
  · rfl
  · norm_num [pC5, readU16LE, toInt16, List.getD]

/-- Claim C5, amended: for every input of at least 40 bytes, the
src/script.js decoder yields speed_x, speed_y and rot_speed equal to
the signed 16-bit little-endian integers at offsets 32, 34 and 36
divided by 1000, while the src/unnamed/part_000 variant yields the
same raw integers without the division. -/
theorem speed_fields_scaling (p : List Nat) (h : 40 ≤ p.length) :
    (parseMessage p 0).map StatusRecord.speed_x
        = some ((toInt16 (readU16LE p 32) : Rat) / 1000)
      ∧ (parseMessage p 0).map StatusRecord.speed_y
        = some ((toInt16 (readU16LE p 34) : Rat) / 1000)
      ∧ (parseMessage p 0).map StatusRecord.rot_speed
        = some ((toInt16 (readU16LE p 36) : Rat) / 1000)
      ∧ (V0.parseMessage p 0).map V0.StatusRecord.speed_x
        = some (toInt16 (readU16LE p 32))
      ∧ (V0.parseMessage p 0).map V0.StatusRecord.speed_y
        = some (toInt16 (readU16LE p 34))
      ∧ (V0.parseMessage p 0).map V0.StatusRecord.rot_speed
        = some (toInt16 (readU16LE p 36)) := by
  have h0 : ¬ (p.length < 0 + 40) := by omega
  unfold parseMessage V0.parseMessage
  simp [h0]

/-- Witness for speed_fields_scaling at the concrete input pC5. -/
theorem speed_fields_scaling_witness :
    (parseMessage pC5 0).map StatusRecord.speed_x
        = some ((toInt16 (readU16LE pC5 32) : Rat) / 1000)
      ∧ (parseMessage pC5 0).map StatusRecord.speed_y
        = some ((toInt16 (readU16LE pC5 34) : Rat) / 1000)
      ∧ (parseMessage pC5 0).map StatusRecord.rot_speed
        = some ((toInt16 (readU16LE pC5 36) : Rat) / 1000)
      ∧ (V0.parseMessage pC5 0).map V0.StatusRecord.speed_x
        = some (toInt16 (readU16LE pC5 32))
      ∧ (V0.parseMessage pC5 0).map V0.StatusRecord.speed_y
        = some (toInt16 (readU16LE pC5 34))
      ∧ (V0.parseMessage pC5 0).map V0.StatusRecord.rot_speed
        = some (toInt16 (readU16LE pC5 36)) :=
  speed_fields_scaling pC5 (by decide)

/-- Observable outcomes of processing one complete frame in readLoop
(src/script.js lines 193-222): a decoded StatusRecord handed to
updateStatusArray, the parseMessage-failed diagnostic, or the checksum
mismatch diagnostic carrying the computed and the stored checksum.
The hex dump to the terminal is rendering, not part of the core. -/
inductive Event where
  | record (r : StatusRecord)
  | parseFailed
  | checksumMismatch (actual expected : Nat)
deriving DecidableEq

/-- Processing of one extracted frame payload msgData in readLoop
(src/script.js lines 193-222): only command 1 with a payload of at
least 3 bytes is examined; the checksum covers the payload minus its
two trailing checksum bytes and is compared against the stored
big-endian pair — the JS expression (chkHigh << 8) | chkLow equals
chkHigh * 256 + chkLow on the byte values a Uint8Array read ever
yields; on success the struct bytes (payload minus command byte and
checksum) go to parseMessage.  Every other payload produces no event
at all. -/
def handleFrame (msgData : List Nat) : List Event :=
  if 3 ≤ msgData.length ∧ msgData.getD 0 0 = 1 then
    if computeChecksum (msgData.take (msgData.length - 2)) =
        msgData.getD (msgData.length - 2) 0 * 256 + msgData.getD (msgData.length - 1) 0 then
      match parseMessage ((msgData.take (msgData.length - 2)).drop 1) 0 with
      | some status => [Event.record status]
      | none => [Event.parseFailed]
    else
      [Event.checksumMismatch (computeChecksum (msgData.take (msgData.length - 2)))
        (msgData.getD (msgData.length - 2) 0 * 256 + msgData.getD (msgData.length - 1) 0)]
  else []

/-- Index of the first sentinel byte 0xFF in the buffer
(JS buffer.indexOf(0xFF); none plays the role of -1). -/
def firstFF : List Nat → Option Nat
  | [] => none
  | b :: t => if b = 255 then some 0 else (firstFF t).map (fun i => i + 1)

/-- The inner parse loop of readLoop (src/script.js lines 174-227),
with an explicit structural fuel.  One unit of fuel is spent per
extracted frame; since every extraction removes at least 2 bytes,
fuel equal to the buffer length is always enough (processBuffer
below), so the fuel is only a structural-termination device, not a
behavioural one. -/
def processBufferF : Nat → List Nat → List Nat × List Event
  | 0, buffer => (buffer, [])
  | fuel + 1, buffer =>
    match firstFF buffer with
    | none =>
      (if 1024 < buffer.length then buffer.drop (buffer.length - 512) else buffer, [])
    | some startIdx =>
      if buffer.length < startIdx + 2 then (buffer, [])
      else if buffer.length < startIdx + 2 + buffer.getD (startIdx + 1) 0 then (buffer, [])
      else
        ((processBufferF fuel (buffer.drop (startIdx + 2 + buffer.getD (startIdx + 1) 0))).1,
          handleFrame ((buffer.drop (startIdx + 2)).take (buffer.getD (startIdx + 1) 0)) ++
            (processBufferF fuel (buffer.drop (startIdx + 2 + buffer.getD (startIdx + 1) 0))).2)

/-- One run of the inner parse loop of readLoop on the current buffer:
repeatedly find the sentinel, wait if the frame is incomplete, trim a
sentinel-free buffer over 1024 bytes down to its trailing 512 bytes,
and otherwise consume the frame (also consuming the noise before the
sentinel) and emit the events of handleFrame. -/
def processBuffer (buffer : List Nat) : List Nat × List Event :=
  processBufferF buffer.length buffer

/-- Feeding a sequence of chunks to the reassembler: each read of
readLoop appends its chunk to the buffer and runs the inner parse
loop to completion, accumulating the emitted events. -/
def feedAll : List Nat → List (List Nat) → List Nat × List Event
  | buffer, [] => (buffer, [])
  | buffer, c :: rest =>
    ((feedAll (processBuffer (buffer ++ c)).1 rest).1,
      (processBuffer (buffer ++ c)).2 ++ (feedAll (processBuffer (buffer ++ c)).1 rest).2)

/-- The suffix of the buffer from its first sentinel byte onward
(empty when there is no sentinel).  Future events of the reassembler
depend only on this suffix: bytes before the first sentinel are noise
that can only ever be discarded. -/
def sfx (l : List Nat) : List Nat :=
  match firstFF l with
  | none => []
  | some i => l.drop i

section ListHelpers

lemma getD_drop (l : List Nat) (n i : Nat) : (l.drop n).getD i 0 = l.getD (n + i) 0 := by
  simp [List.getD_eq_getElem?_getD, List.getElem?_drop]

lemma getD_append_left (a b : List Nat) (i : Nat) (h : i < a.length) :
    (a ++ b).getD i 0 = a.getD i 0 := by
  simp [List.getD_eq_getElem?_getD, List.getElem?_append, h]

end ListHelpers

section FirstFFLemmas

lemma firstFF_none_iff (l : List Nat) : firstFF l = none ↔ ∀ x ∈ l, x ≠ 255 := by
  induction l with
  | nil => simp [firstFF]
  | cons b t ih =>
      by_cases hb : b = 255
      · simp [firstFF, hb]
      · simp [firstFF, hb, Option.map_eq_none', ih]

lemma firstFF_some_lt (l : List Nat) (i : Nat) (h : firstFF l = some i) : i < l.length := by
  induction l generalizing i with
  | nil => simp [firstFF] at h
  | cons b t ih =>
      simp only [firstFF] at h
      by_cases hb : b = 255
      · rw [if_pos hb] at h
        simp only [Option.some.injEq] at h
        simp [← h]
      · rw [if_neg hb] at h
        obtain ⟨j, hj, rfl⟩ := Option.map_eq_some'.mp h
        have := ih j hj
        simp only [List.length_cons]
        omega

lemma firstFF_getElem? (l : List Nat) (i : Nat) (h : firstFF l = some i) :
    l[i]? = some 255 := by
  induction l generalizing i with
  | nil => simp [firstFF] at h
  | cons b t ih =>
      simp only [firstFF] at h
      by_cases hb : b = 255
      · rw [if_pos hb] at h
        simp only [Option.some.injEq] at h
        simp [← h, hb]
      · rw [if_neg hb] at h
        obtain ⟨j, hj, rfl⟩ := Option.map_eq_some'.mp h
        simpa using ih j hj

lemma firstFF_drop_eq (l : List Nat) (i : Nat) (h : firstFF l = some i) :
    firstFF (l.drop i) = some 0 := by
  have hlt := firstFF_some_lt l i h
  rw [List.drop_eq_getElem_cons hlt]
  have hv : l[i] = 255 := by
    have := firstFF_getElem? l i h
    rw [List.getElem?_eq_getElem hlt] at this
    exact Option.some.injEq _ _ ▸ (by simpa using this)
  simp [firstFF, hv]

lemma firstFF_append_left (a c : List Nat) (i : Nat) (h : firstFF a = some i) :
    firstFF (a ++ c) = some i := by
  induction a generalizing i with
  | nil => simp [firstFF] at h
  | cons b t ih =>
      simp only [firstFF, List.cons_append] at h ⊢
      by_cases hb : b = 255
      · rw [if_pos hb] at h ⊢
        exact h
      · rw [if_neg hb] at h ⊢
        obtain ⟨j, hj, rfl⟩ := Option.map_eq_some'.mp h
        rw [List.append_eq, ih j hj]
        rfl

lemma firstFF_append_none (a c : List Nat) (h : firstFF a = none) :
    firstFF (a ++ c) = (firstFF c).map (fun j => a.length + j) := by
  induction a with
  | nil =>
      cases hc : firstFF c <;> simp [hc]
  | cons b t ih =>
      simp only [firstFF] at h
      by_cases hb : b = 255
      · rw [if_pos hb] at h
        cases h
      · rw [if_neg hb] at h
        have ht : firstFF t = none := Option.map_eq_none'.mp h
        simp only [List.cons_append, firstFF, if_neg hb]
        rw [List.append_eq, ih ht]
        cases hc : firstFF c with
        | none => rfl
        | some j =>
            simp only [Option.map_some', List.length_cons, Option.some.injEq]
            omega

lemma firstFF_drop_none (l : List Nat) (n : Nat) (h : firstFF l = none) :
    firstFF (l.drop n) = none := by
  rw [firstFF_none_iff] at h ⊢
  intro x hx
  exact h x ((List.drop_sublist n l).mem hx)

end FirstFFLemmas

section SfxLemmas

lemma sfx_of_none {l : List Nat} (h : firstFF l = none) : sfx l = [] := by
  simp [sfx, h]

lemma sfx_of_some {l : List Nat} {i : Nat} (h : firstFF l = some i) : sfx l = l.drop i := by
  simp [sfx, h]

lemma sfx_eq_nil_iff (l : List Nat) : sfx l = [] ↔ firstFF l = none := by
  constructor
  · intro h
    cases hf : firstFF l with
    | none => rfl
    | some i =>
        rw [sfx_of_some hf] at h
        have := firstFF_some_lt l i hf
        rw [List.drop_eq_nil_iff] at h
        omega
  · exact sfx_of_none

lemma sfx_sfx (l : List Nat) : sfx (sfx l) = sfx l := by
  cases hf : firstFF l with
  | none => rw [sfx_of_none hf]; rfl
  | some i =>
      rw [sfx_of_some hf, sfx_of_some (firstFF_drop_eq l i hf), List.drop_zero]

lemma sfx_append (a c : List Nat) :
    sfx (a ++ c) = if firstFF a = none then sfx c else sfx a ++ c := by
  cases ha : firstFF a with
  | none =>
      rw [if_pos rfl]
      unfold sfx
      rw [firstFF_append_none a c ha]
      cases hc : firstFF c with
      | none => rfl
      | some j =>
          show (a ++ c).drop (a.length + j) = List.drop j c
          rw [← List.drop_drop, List.drop_append_of_le_length (le_refl a.length),
            List.drop_length, List.nil_append]
  | some i =>
      rw [if_neg (by simp [ha])]
      unfold sfx
      rw [firstFF_append_left a c i ha, ha]
      show (a ++ c).drop i = a.drop i ++ c
      have := firstFF_some_lt a i ha
      exact List.drop_append_of_le_length (by omega)

lemma sfx_append_congr (a1 a2 c : List Nat) (h : sfx a1 = sfx a2) :
    sfx (a1 ++ c) = sfx (a2 ++ c) := by
  rw [sfx_append, sfx_append]
  by_cases h1 : firstFF a1 = none
  · have h2 : firstFF a2 = none := by
      rw [← sfx_eq_nil_iff, ← h, sfx_eq_nil_iff]
      exact h1
    rw [if_pos h1, if_pos h2]
  · have h2 : ¬ firstFF a2 = none := by
      rw [← sfx_eq_nil_iff, ← h, sfx_eq_nil_iff]
      exact h1
    rw [if_neg h1, if_neg h2, h]

end SfxLemmas

section ProcessBufferEquations

lemma pBF_succ (f : Nat) (B : List Nat) :
    processBufferF (f + 1) B =
      match firstFF B with
      | none =>
        (if 1024 < B.length then B.drop (B.length - 512) else B, [])
      | some startIdx =>
        if B.length < startIdx + 2 then (B, [])
        else if B.length < startIdx + 2 + B.getD (startIdx + 1) 0 then (B, [])
        else
          ((processBufferF f (B.drop (startIdx + 2 + B.getD (startIdx + 1) 0))).1,
            handleFrame ((B.drop (startIdx + 2)).take (B.getD (startIdx + 1) 0)) ++
              (processBufferF f (B.drop (startIdx + 2 + B.getD (startIdx + 1) 0))).2) := rfl

lemma pBF_none (f : Nat) (B : List Nat) (h : firstFF B = none) :
    processBufferF (f + 1) B =
      (if 1024 < B.length then B.drop (B.length - 512) else B, []) := by
  simp only [pBF_succ, h]

lemma pBF_short1 (f : Nat) (B : List Nat) (i : Nat) (h : firstFF B = some i)
    (h2 : B.length < i + 2) : processBufferF (f + 1) B = (B, []) := by
  simp only [pBF_succ, h]
  rw [if_pos h2]

lemma pBF_short2 (f : Nat) (B : List Nat) (i : Nat) (h : firstFF B = some i)
    (h2 : ¬ B.length < i + 2) (h3 : B.length < i + 2 + B.getD (i + 1) 0) :
    processBufferF (f + 1) B = (B, []) := by
  simp only [pBF_succ, h]
  rw [if_neg h2, if_pos h3]

lemma pBF_step (f : Nat) (B : List Nat) (i : Nat) (h : firstFF B = some i)
    (h3 : i + 2 + B.getD (i + 1) 0 ≤ B.length) :
    processBufferF (f + 1) B =
      ((processBufferF f (B.drop (i + 2 + B.getD (i + 1) 0))).1,
        handleFrame ((B.drop (i + 2)).take (B.getD (i + 1) 0)) ++
          (processBufferF f (B.drop (i + 2 + B.getD (i + 1) 0))).2) := by
  simp only [pBF_succ, h]
  rw [if_neg (by omega), if_neg (by omega)]

lemma pBF_congr (f1 : Nat) : ∀ (f2 : Nat) (B : List Nat), B.length ≤ f1 → B.length ≤ f2 →
    processBufferF f1 B = processBufferF f2 B := by
  induction f1 with
  | zero =>
      intro f2 B h1 h2
      have hB : B = [] := List.length_eq_zero.mp (by omega)
      subst hB
      cases f2 with
      | zero => rfl
      | succ f2 => rw [pBF_none f2 [] rfl]; simp [processBufferF]
  | succ f1 ih =>
      intro f2 B h1 h2
      cases f2 with
      | zero =>
          have hB : B = [] := List.length_eq_zero.mp (by omega)
          subst hB
          rw [pBF_none f1 [] rfl]
          simp [processBufferF]
      | succ f2 =>
          cases hf : firstFF B with
          | none => rw [pBF_none f1 B hf, pBF_none f2 B hf]
          | some i =>
              by_cases hs : B.length < i + 2
              · rw [pBF_short1 f1 B i hf hs, pBF_short1 f2 B i hf hs]
              · by_cases h3 : B.length < i + 2 + B.getD (i + 1) 0
                · rw [pBF_short2 f1 B i hf hs h3, pBF_short2 f2 B i hf hs h3]
                · have hle : i + 2 + B.getD (i + 1) 0 ≤ B.length := by omega
                  rw [pBF_step f1 B i hf hle, pBF_step f2 B i hf hle]
                  rw [ih f2 (B.drop (i + 2 + B.getD (i + 1) 0))
                    (by rw [List.length_drop]; omega) (by rw [List.length_drop]; omega)]

lemma pB_eq_pBF (B : List Nat) (f : Nat) (hf : B.length ≤ f) :
    processBuffer B = processBufferF f B :=
  pBF_congr B.length f B (le_refl _) hf

lemma pB_nil : processBuffer [] = ([], []) := rfl

lemma pB_none (B : List Nat) (h : firstFF B = none) :
    processBuffer B = (if 1024 < B.length then B.drop (B.length - 512) else B, []) := by
  rw [pB_eq_pBF B (B.length + 1) (by omega)]
  exact pBF_none B.length B h

lemma pB_short1 (B : List Nat) (i : Nat) (h : firstFF B = some i)
    (h2 : B.length < i + 2) : processBuffer B = (B, []) := by
  rw [pB_eq_pBF B (B.length + 1) (by omega)]
  exact pBF_short1 B.length B i h h2

lemma pB_short2 (B : List Nat) (i : Nat) (h : firstFF B = some i)
    (h2 : ¬ B.length < i + 2) (h3 : B.length < i + 2 + B.getD (i + 1) 0) :
    processBuffer B = (B, []) := by
  rw [pB_eq_pBF B (B.length + 1) (by omega)]
  exact pBF_short2 B.length B i h h2 h3

lemma pB_step (B : List Nat) (i : Nat) (h : firstFF B = some i)
    (h3 : i + 2 + B.getD (i + 1) 0 ≤ B.length) :
    processBuffer B =
      ((processBuffer (B.drop (i + 2 + B.getD (i + 1) 0))).1,
        handleFrame ((B.drop (i + 2)).take (B.getD (i + 1) 0)) ++
          (processBuffer (B.drop (i + 2 + B.getD (i + 1) 0))).2) := by
  rw [pB_eq_pBF B (B.length + 1) (by omega), pBF_step B.length B i h h3]
  rw [(pB_eq_pBF (B.drop (i + 2 + B.getD (i + 1) 0)) B.length
    (by rw [List.length_drop]; omega)).symm]

end ProcessBufferEquations

section ProcessBufferBounds

lemma pBF_residual_bound : ∀ (f : Nat) (B : List Nat), B.length ≤ f →
    firstFF (processBufferF f B).1 = none → (processBufferF f B).1.length ≤ 1024 := by
  intro f
  induction f with
  | zero =>
      intro B h1 _
      have hB : B = [] := List.length_eq_zero.mp (by omega)
      subst hB
      simp [processBufferF]
  | succ f ih =>
      intro B h1 hres
      cases hf : firstFF B with
      | none =>
          rw [pBF_none f B hf]
          by_cases ht : 1024 < B.length
          · rw [if_pos ht]
            dsimp only
            simp only [List.length_drop]
            omega
          · rw [if_neg ht]
            dsimp only
            omega
      | some i =>
          by_cases hs : B.length < i + 2
          · rw [pBF_short1 f B i hf hs] at hres ⊢
            dsimp only at hres
            rw [hf] at hres
            cases hres
          · by_cases h3 : B.length < i + 2 + B.getD (i + 1) 0
            · rw [pBF_short2 f B i hf hs h3] at hres ⊢
              dsimp only at hres
              rw [hf] at hres
              cases hres
            · have hle : i + 2 + B.getD (i + 1) 0 ≤ B.length := by omega
              rw [pBF_step f B i hf hle] at hres ⊢
              exact ih (B.drop (i + 2 + B.getD (i + 1) 0))
                (by rw [List.length_drop]; omega) hres

lemma pBF_length_le : ∀ (f : Nat) (B : List Nat), B.length ≤ f →
    (processBufferF f B).1.length ≤ B.length := by
  intro f
  induction f with
  | zero =>
      intro B h1
      have hB : B = [] := List.length_eq_zero.mp (by omega)
      subst hB
      simp [processBufferF]
  | succ f ih =>
      intro B h1
      cases hf : firstFF B with
      | none =>
          rw [pBF_none f B hf]
          by_cases ht : 1024 < B.length
          · rw [if_pos ht]
            simp only [List.length_drop]
            omega
          · rw [if_neg ht]
      | some i =>
          by_cases hs : B.length < i + 2
          · rw [pBF_short1 f B i hf hs]
          · by_cases h3 : B.length < i + 2 + B.getD (i + 1) 0
            · rw [pBF_short2 f B i hf hs h3]
            · have hle : i + 2 + B.getD (i + 1) 0 ≤ B.length := by omega
              rw [pBF_step f B i hf hle]
              have := ih (B.drop (i + 2 + B.getD (i + 1) 0))
                (by rw [List.length_drop]; omega)
              simp only [List.length_drop] at this ⊢
              omega

end ProcessBufferBounds

/-- Claim C2: whenever the buffer contains a sentinel at position i, the
inner parse loop either (when at least 2 + length bytes are available
from the sentinel) consumes the frame as one contiguous unit, removing
exactly the bytes up to and including the end of the frame and handing
the frame payload to handleFrame before continuing, or (when the frame
is incomplete) leaves the buffer completely untouched — partial frames
are never removed. -/
theorem frame_removal_atomic (B : List Nat) (i : Nat) (h : firstFF B = some i) :
    processBuffer B =
      if i + 2 + B.getD (i + 1) 0 ≤ B.length then
        ((processBuffer (B.drop (i + 2 + B.getD (i + 1) 0))).1,
          handleFrame ((B.drop (i + 2)).take (B.getD (i + 1) 0)) ++
            (processBuffer (B.drop (i + 2 + B.getD (i + 1) 0))).2)
      else (B, []) := by
  by_cases hc : i + 2 + B.getD (i + 1) 0 ≤ B.length
  · rw [if_pos hc]
    exact pB_step B i h hc
  · rw [if_neg hc]
    by_cases hs : B.length < i + 2
    · exact pB_short1 B i h hs
    · exact pB_short2 B i h hs (by omega)

/-- Witness for frame_removal_atomic on the concrete buffer
7, 255, 3, 1, 0, 1 (one noise byte, then a complete frame of
length 3). -/
theorem frame_removal_atomic_witness :
    processBuffer [7, 255, 3, 1, 0, 1] =
      if 1 + 2 + List.getD [7, 255, 3, 1, 0, 1] (1 + 1) 0 ≤ List.length [7, 255, 3, 1, 0, 1] then
        ((processBuffer (List.drop (1 + 2 + List.getD [7, 255, 3, 1, 0, 1] (1 + 1) 0) [7, 255, 3, 1, 0, 1])).1,
          handleFrame ((List.drop (1 + 2) [7, 255, 3, 1, 0, 1]).take (List.getD [7, 255, 3, 1, 0, 1] (1 + 1) 0)) ++
            (processBuffer (List.drop (1 + 2 + List.getD [7, 255, 3, 1, 0, 1] (1 + 1) 0) [7, 255, 3, 1, 0, 1])).2)
      else ([7, 255, 3, 1, 0, 1], []) :=
  frame_removal_atomic [7, 255, 3, 1, 0, 1] 1 (by decide)

/-- Claim C7: a complete frame whose payload is shorter than 3 bytes or
whose command byte is not 1 is silently dropped: processing the buffer
gives exactly the same residual buffer and the same events as
processing the buffer with the frame (and the noise before it) already
removed — no record, no diagnostic, and streaming continues. -/
theorem unrecognized_frame_silently_dropped (B : List Nat) (i : Nat)
    (h : firstFF B = some i) (hc : i + 2 + B.getD (i + 1) 0 ≤ B.length)
    (hd : B.getD (i + 1) 0 < 3 ∨ B.getD (i + 2) 0 ≠ 1) :
    processBuffer B = processBuffer (B.drop (i + 2 + B.getD (i + 1) 0)) := by
  rw [pB_step B i h hc]
  have hnil : handleFrame ((B.drop (i + 2)).take (B.getD (i + 1) 0)) = [] := by
    unfold handleFrame
    rw [if_neg]
    intro ⟨h3, hc1⟩
    have hlen : ((B.drop (i + 2)).take (B.getD (i + 1) 0)).length = B.getD (i + 1) 0 := by
      rw [List.length_take, List.length_drop]
      omega
    rcases hd with hd | hd
    · omega
    · apply hd
      have h0 : (0 : Nat) < B.getD (i + 1) 0 := by omega
      have hval : ((B.drop (i + 2)).take (B.getD (i + 1) 0)).getD 0 0 = B.getD (i + 2) 0 := by
        rw [List.getD_eq_getElem?_getD, List.getElem?_take, if_pos h0,
          List.getElem?_drop, Nat.add_zero, List.getD_eq_getElem?_getD]
      rw [← hval]
      exact hc1
  rw [hnil, List.nil_append]

/-- Witness for unrecognized_frame_silently_dropped on the concrete
buffer 255, 2, 9, 9: a complete frame with length byte 2 (payload
shorter than 3 bytes). -/
theorem unrecognized_frame_silently_dropped_witness :
    processBuffer [255, 2, 9, 9] =
      processBuffer (List.drop (0 + 2 + List.getD [255, 2, 9, 9] (0 + 1) 0) [255, 2, 9, 9]) :=
  unrecognized_frame_silently_dropped [255, 2, 9, 9] 0 (by decide) (by decide)
    (Or.inl (by decide))

/-- Claim C10: the inner parse loop of readLoop terminates.  Whenever an
iteration does not break (a sentinel is present and the complete frame
of 2 + length bytes is available), the removal leaves a buffer at
least 2 bytes shorter, so the buffer length strictly decreases; and a
full run of the loop never grows the buffer. -/
theorem inner_loop_decrease (B X : List Nat) (i : Nat)
    (h : firstFF B = some i) (hc : i + 2 + B.getD (i + 1) 0 ≤ B.length) :
    (B.drop (i + 2 + B.getD (i + 1) 0)).length + 2 ≤ B.length
      ∧ (processBuffer X).1.length ≤ X.length := by
  constructor
  · rw [List.length_drop]
    omega
  · exact pBF_length_le X.length X (le_refl _)

/-- Witness for inner_loop_decrease on the concrete buffer
255, 1, 5 (complete frame) with an independent buffer 3, 4. -/
theorem inner_loop_decrease_witness :
    (List.drop (0 + 2 + List.getD [255, 1, 5] (0 + 1) 0) [255, 1, 5]).length + 2
        ≤ List.length [255, 1, 5]
      ∧ (processBuffer [3, 4]).1.length ≤ List.length [3, 4] :=
  inner_loop_decrease [255, 1, 5] [3, 4] 0 (by decide) (by decide)

/-- Claim C6: when the buffer contains no sentinel, the feed leaves it
unchanged unless it exceeds 1024 bytes, in which case everything but
the trailing 512 bytes is dropped; consequently a sentinel-free buffer
left behind by any feed has length at most 1024. -/
theorem sentinel_free_trim (B X : List Nat) (h : firstFF B = none)
    (h2 : firstFF (processBuffer X).1 = none) :
    processBuffer B = (if 1024 < B.length then B.drop (B.length - 512) else B, [])
      ∧ (processBuffer X).1.length ≤ 1024 := by
  refine ⟨pB_none B h, ?_⟩
  exact pBF_residual_bound X.length X (le_refl _) h2

/-- Witness for sentinel_free_trim on the concrete sentinel-free
buffers 1, 2, 3 and 4, 5. -/
theorem sentinel_free_trim_witness :
    processBuffer [1, 2, 3] =
        (if 1024 < List.length [1, 2, 3] then
          List.drop (List.length [1, 2, 3] - 512) [1, 2, 3] else [1, 2, 3], [])
      ∧ (processBuffer [4, 5]).1.length ≤ 1024 :=
  sentinel_free_trim [1, 2, 3] [4, 5] (by decide) (by decide)

/-- The frame payload with one bit (bit k of the byte at index j)
flipped — the corruption considered by the checksum robustness claim. -/
def flipBitAt (msg : List Nat) (j k : Nat) : List Nat :=
  msg.set j (Nat.xor (msg.getD j 0) (2 ^ k))

section FlipBitLemmas

lemma take_set_of_le (l : List Nat) (j n v : Nat) (h : n ≤ j) :
    (l.set j v).take n = l.take n := by
  apply List.ext_getElem?
  intro m
  simp only [List.getElem?_take]
  by_cases hm : m < n
  · rw [if_pos hm, if_pos hm, List.getElem?_set_ne (by omega)]
  · rw [if_neg hm, if_neg hm]

lemma getD_set_self (l : List Nat) (j v : Nat) (h : j < l.length) :
    (l.set j v).getD j 0 = v := by
  rw [List.getD_eq_getElem?_getD, List.getElem?_set_self h]
  rfl

lemma getD_set_other (l : List Nat) (j v i : Nat) (h : j ≠ i) :
    (l.set j v).getD i 0 = l.getD i 0 := by
  rw [List.getD_eq_getElem?_getD, List.getElem?_set_ne h, ← List.getD_eq_getElem?_getD]

lemma flipBitAt_length (msg : List Nat) (j k : Nat) :
    (flipBitAt msg j k).length = msg.length :=
  List.length_set msg j _

lemma flipBitAt_take (msg : List Nat) (j k n : Nat) (h : n ≤ j) :
    (flipBitAt msg j k).take n = msg.take n :=
  take_set_of_le msg j n _ h

lemma flipBitAt_getD_self (msg : List Nat) (j k : Nat) (h : j < msg.length) :
    (flipBitAt msg j k).getD j 0 = Nat.xor (msg.getD j 0) (2 ^ k) :=
  getD_set_self msg j _ h

lemma flipBitAt_getD_other (msg : List Nat) (j k i : Nat) (h : j ≠ i) :
    (flipBitAt msg j k).getD i 0 = msg.getD i 0 :=
  getD_set_other msg j _ i h

lemma xor_two_pow_ne (a k : Nat) : Nat.xor a (2 ^ k) ≠ a := by
  show a ^^^ (2 ^ k) ≠ a
  intro hEq
  have h1 : a ^^^ (a ^^^ (2 ^ k)) = a ^^^ a := by rw [hEq]
  rw [← Nat.xor_assoc, Nat.xor_self, Nat.zero_xor] at h1
  have := Nat.two_pow_pos k
  omega

end FlipBitLemmas

/-- Claim C3: take a complete command-1 frame whose stored checksum
pair matches the additive checksum of its command-plus-data bytes;
flipping any single bit of either checksum byte makes the reassembler
drop the whole frame with a checksum-mismatch diagnostic as the only
event — no StatusRecord is emitted and parseMessage is never reached. -/
theorem checksum_bitflip_drops_frame (msg : List Nat) (j k : Nat) (hk : k < 8)
    (hj : j = msg.length - 2 ∨ j = msg.length - 1)
    (hlen : 3 ≤ msg.length) (hmax : msg.length ≤ 255)
    (hbytes : ∀ b ∈ msg, b < 256)
    (hcmd : msg.getD 0 0 = 1)
    (hvalid : computeChecksum (msg.take (msg.length - 2)) =
      msg.getD (msg.length - 2) 0 * 256 + msg.getD (msg.length - 1) 0) :
    computeChecksum ((flipBitAt msg j k).take (msg.length - 2)) ≠
        (flipBitAt msg j k).getD (msg.length - 2) 0 * 256 +
          (flipBitAt msg j k).getD (msg.length - 1) 0
      ∧ processBuffer (255 :: msg.length :: flipBitAt msg j k) =
        ([], [Event.checksumMismatch
          (computeChecksum ((flipBitAt msg j k).take (msg.length - 2)))
          ((flipBitAt msg j k).getD (msg.length - 2) 0 * 256 +
            (flipBitAt msg j k).getD (msg.length - 1) 0)]) := by
  have hA : computeChecksum ((flipBitAt msg j k).take (msg.length - 2)) =
      msg.getD (msg.length - 2) 0 * 256 + msg.getD (msg.length - 1) 0 := by
    rw [flipBitAt_take msg j k _ (by rcases hj with hj | hj <;> omega), hvalid]
  have hne : computeChecksum ((flipBitAt msg j k).take (msg.length - 2)) ≠
      (flipBitAt msg j k).getD (msg.length - 2) 0 * 256 +
        (flipBitAt msg j k).getD (msg.length - 1) 0 := by
    rcases hj with hj | hj
    · subst hj
      rw [hA, flipBitAt_getD_self msg _ k (by omega),
        flipBitAt_getD_other msg _ k _ (by omega)]
      have hx := xor_two_pow_ne (msg.getD (msg.length - 2) 0) k
      omega
    · subst hj
      rw [hA, flipBitAt_getD_other msg _ k _ (by omega),
        flipBitAt_getD_self msg _ k (by omega)]
      have hx := xor_two_pow_ne (msg.getD (msg.length - 1) 0) k
      omega
  refine ⟨hne, ?_⟩
  have hjge : 1 ≤ j := by rcases hj with hj | hj <;> omega
  have hlen2 := flipBitAt_length msg j k
  have hcmd2 : (flipBitAt msg j k).getD 0 0 = 1 := by
    rw [flipBitAt_getD_other msg j k 0 (by omega)]
    exact hcmd
  have hhf : handleFrame (flipBitAt msg j k) =
      [Event.checksumMismatch
        (computeChecksum ((flipBitAt msg j k).take (msg.length - 2)))
        ((flipBitAt msg j k).getD (msg.length - 2) 0 * 256 +
          (flipBitAt msg j k).getD (msg.length - 1) 0)] := by
    unfold handleFrame
    rw [hlen2, if_pos ⟨by omega, hcmd2⟩, if_neg hne]
  have hff : firstFF (255 :: msg.length :: flipBitAt msg j k) = some 0 := by
    simp [firstFF]
  have hg : (255 :: msg.length :: flipBitAt msg j k).getD (0 + 1) 0 = msg.length := rfl
  have hBlen : (255 :: msg.length :: flipBitAt msg j k).length = msg.length + 2 := by
    simp [hlen2]
  have hstep := pB_step (255 :: msg.length :: flipBitAt msg j k) 0 hff
    (by rw [hg, hBlen]; omega)
  rw [hg] at hstep
  have hdrop2 : (255 :: msg.length :: flipBitAt msg j k).drop (0 + 2) = flipBitAt msg j k := rfl
  have hdropAll : (255 :: msg.length :: flipBitAt msg j k).drop (0 + 2 + msg.length) = [] := by
    have he : 0 + 2 + msg.length = msg.length + 1 + 1 := by omega
    rw [he, List.drop_succ_cons, List.drop_succ_cons, ← hlen2, List.drop_length]
  rw [hdrop2, hdropAll, pB_nil] at hstep
  rw [hstep]
  have htk : (flipBitAt msg j k).take msg.length = flipBitAt msg j k := by
    rw [← hlen2, List.take_length]
  rw [htk, hhf]
  dsimp only
  rw [List.append_nil]

/-- Witness for checksum_bitflip_drops_frame: concrete frame payload
1, 0, 1 (command 1, empty data, valid checksum 0x0001) with bit 0
of the low checksum byte flipped. -/
theorem checksum_bitflip_drops_frame_witness :
    computeChecksum ((flipBitAt [1, 0, 1] 2 0).take (List.length [1, 0, 1] - 2)) ≠
        (flipBitAt [1, 0, 1] 2 0).getD (List.length [1, 0, 1] - 2) 0 * 256 +
          (flipBitAt [1, 0, 1] 2 0).getD (List.length [1, 0, 1] - 1) 0
      ∧ processBuffer (255 :: List.length [1, 0, 1] :: flipBitAt [1, 0, 1] 2 0) =
        ([], [Event.checksumMismatch
          (computeChecksum ((flipBitAt [1, 0, 1] 2 0).take (List.length [1, 0, 1] - 2)))
          ((flipBitAt [1, 0, 1] 2 0).getD (List.length [1, 0, 1] - 2) 0 * 256 +
            (flipBitAt [1, 0, 1] 2 0).getD (List.length [1, 0, 1] - 1) 0)]) :=
  checksum_bitflip_drops_frame [1, 0, 1] 2 0 (by decide) (Or.inr (by decide)) (by decide)
    (by decide) (by decide) (by decide) (by decide)

section ChunkIndependence

lemma pB_sfx (X : List Nat) :
    (processBuffer X).2 = (processBuffer (sfx X)).2 ∧
      sfx (processBuffer X).1 = sfx (processBuffer (sfx X)).1 := by
  cases hf : firstFF X with
  | none =>
      have hT : firstFF (if 1024 < X.length then X.drop (X.length - 512) else X) = none := by
        by_cases ht : 1024 < X.length
        · rw [if_pos ht]; exact firstFF_drop_none X _ hf
        · rw [if_neg ht]; exact hf
      rw [sfx_of_none hf, pB_none X hf, pB_nil]
      exact ⟨rfl, by dsimp only; rw [sfx_of_none hT]; rfl⟩
  | some i =>
      have hlt := firstFF_some_lt X i hf
      have hsfx := sfx_of_some hf
      have hff0 : firstFF (X.drop i) = some 0 := firstFF_drop_eq X i hf
      have hgd : (X.drop i).getD (0 + 1) 0 = X.getD (i + 1) 0 := getD_drop X i (0 + 1)
      have hlen : (X.drop i).length = X.length - i := List.length_drop i X
      by_cases hc : i + 2 + X.getD (i + 1) 0 ≤ X.length
      · have hc2 : 0 + 2 + (X.drop i).getD (0 + 1) 0 ≤ (X.drop i).length := by
          rw [hgd, hlen]; omega
        rw [hsfx, pB_step X i hf hc, pB_step (X.drop i) 0 hff0 hc2]
        have hrest : (X.drop i).drop (0 + 2 + (X.drop i).getD (0 + 1) 0) =
            X.drop (i + 2 + X.getD (i + 1) 0) := by
          rw [hgd, List.drop_drop]
          congr 1
          omega
        have hmsg : ((X.drop i).drop (0 + 2)).take ((X.drop i).getD (0 + 1) 0) =
            (X.drop (i + 2)).take (X.getD (i + 1) 0) := by
          rw [hgd, List.drop_drop]
        rw [hrest, hmsg]
        exact ⟨rfl, rfl⟩
      · have hx : processBuffer X = (X, []) := by
          by_cases hs : X.length < i + 2
          · exact pB_short1 X i hf hs
          · exact pB_short2 X i hf hs (by omega)
        have hy : processBuffer (X.drop i) = (X.drop i, []) := by
          by_cases hs : (X.drop i).length < 0 + 2
          · exact pB_short1 (X.drop i) 0 hff0 hs
          · exact pB_short2 (X.drop i) 0 hff0 hs (by rw [hgd, hlen]; omega)
        rw [hsfx, hx, hy]
        dsimp only
        exact ⟨rfl, by rw [← hsfx, sfx_sfx]⟩

lemma pB_congr2 (X Y : List Nat) (h : sfx X = sfx Y) :
    (processBuffer X).2 = (processBuffer Y).2 ∧
      sfx (processBuffer X).1 = sfx (processBuffer Y).1 := by
  have hx := pB_sfx X
  have hy := pB_sfx Y
  rw [h] at hx
  exact ⟨hx.1.trans hy.1.symm, hx.2.trans hy.2.symm⟩

lemma pB_merge_aux : ∀ (n : Nat) (X : List Nat), X.length ≤ n → ∀ (c : List Nat),
    (processBuffer (X ++ c)).2 =
        (processBuffer X).2 ++ (processBuffer ((processBuffer X).1 ++ c)).2 ∧
      sfx (processBuffer (X ++ c)).1 = sfx (processBuffer ((processBuffer X).1 ++ c)).1 := by
  intro n
  induction n with
  | zero =>
      intro X hX c
      have hnil : X = [] := List.length_eq_zero.mp (by omega)
      subst hnil
      rw [pB_nil]
      dsimp only
      rw [List.nil_append, List.nil_append]
      exact ⟨rfl, rfl⟩
  | succ n ih =>
      intro X hX c
      cases hf : firstFF X with
      | none =>
          have hT : firstFF (if 1024 < X.length then X.drop (X.length - 512) else X) = none := by
            by_cases ht : 1024 < X.length
            · rw [if_pos ht]; exact firstFF_drop_none X _ hf
            · rw [if_neg ht]; exact hf
          rw [pB_none X hf]
          dsimp only
          have hcong := pB_congr2 (X ++ c)
            ((if 1024 < X.length then X.drop (X.length - 512) else X) ++ c)
            (sfx_append_congr _ _ c (by rw [sfx_of_none hf, sfx_of_none hT]))
          rw [List.nil_append]
          exact hcong
      | some i =>
          by_cases hc : i + 2 + X.getD (i + 1) 0 ≤ X.length
          · have hfc : firstFF (X ++ c) = some i := firstFF_append_left X c i hf
            have hgd : (X ++ c).getD (i + 1) 0 = X.getD (i + 1) 0 :=
              getD_append_left X c (i + 1) (by omega)
            have hcc : i + 2 + (X ++ c).getD (i + 1) 0 ≤ (X ++ c).length := by
              rw [hgd, List.length_append]; omega
            rw [pB_step X i hf hc, pB_step (X ++ c) i hfc hcc]
            have hrest : (X ++ c).drop (i + 2 + (X ++ c).getD (i + 1) 0) =
                X.drop (i + 2 + X.getD (i + 1) 0) ++ c := by
              rw [hgd]; exact List.drop_append_of_le_length (by omega)
            have hmsg : ((X ++ c).drop (i + 2)).take ((X ++ c).getD (i + 1) 0) =
                (X.drop (i + 2)).take (X.getD (i + 1) 0) := by
              rw [hgd, List.drop_append_of_le_length (show i + 2 ≤ X.length by omega)]
              exact List.take_append_of_le_length (by rw [List.length_drop]; omega)
            rw [hrest, hmsg]
            dsimp only
            have hih := ih (X.drop (i + 2 + X.getD (i + 1) 0))
              (by rw [List.length_drop]; omega) c
            constructor
            · rw [List.append_assoc, hih.1]
            · exact hih.2
          · have hx : processBuffer X = (X, []) := by
              by_cases hs : X.length < i + 2
              · exact pB_short1 X i hf hs
              · exact pB_short2 X i hf hs (by omega)
            rw [hx]
            dsimp only
            rw [List.nil_append]
            exact ⟨rfl, rfl⟩

lemma feedAll_cons (B c : List Nat) (cs : List (List Nat)) :
    feedAll B (c :: cs) = ((feedAll (processBuffer (B ++ c)).1 cs).1,
      (processBuffer (B ++ c)).2 ++ (feedAll (processBuffer (B ++ c)).1 cs).2) := rfl

lemma feedAll_append (B : List Nat) (cs1 cs2 : List (List Nat)) :
    feedAll B (cs1 ++ cs2) = ((feedAll (feedAll B cs1).1 cs2).1,
      (feedAll B cs1).2 ++ (feedAll (feedAll B cs1).1 cs2).2) := by
  induction cs1 generalizing B with
  | nil =>
      show feedAll B cs2 = ((feedAll (feedAll B []).1 cs2).1,
        (feedAll B []).2 ++ (feedAll (feedAll B []).1 cs2).2)
      dsimp [feedAll]
  | cons c cs ih =>
      show feedAll B (c :: (cs ++ cs2)) = _
      rw [feedAll_cons, ih, feedAll_cons]
      dsimp only
      rw [List.append_assoc]

lemma feed_single_bytes (l : List Nat) :
    (feedAll [] (l.map fun b => [b])).2 = (processBuffer l).2 ∧
      sfx (feedAll [] (l.map fun b => [b])).1 = sfx (processBuffer l).1 := by
  induction l using List.reverseRecOn with
  | nil =>
      dsimp [feedAll]
      rw [pB_nil]
      exact ⟨rfl, rfl⟩
  | append_singleton l b ih =>
      rw [List.map_append, feedAll_append]
      dsimp only
      simp only [List.map_cons, List.map_nil]
      rw [show ∀ B : List Nat, feedAll B [[b]] =
        ((processBuffer (B ++ [b])).1, (processBuffer (B ++ [b])).2 ++ [])
        from fun B => rfl]
      dsimp only
      rw [List.append_nil]
      obtain ⟨ih1, ih2⟩ := ih
      have hcong := pB_congr2 ((feedAll [] (l.map fun x => [x])).1 ++ [b])
        ((processBuffer l).1 ++ [b]) (sfx_append_congr _ _ [b] ih2)
      have hmerge := pB_merge_aux l.length l (le_refl _) [b]
      constructor
      · rw [ih1, hcong.1, hmerge.1]
      · rw [hcong.2, hmerge.2]

end ChunkIndependence

/-- Claim C1: feeding any byte sequence to the reassembler one byte at
a time produces exactly the same event sequence (StatusRecords and
diagnostics, in order) as feeding the whole sequence as one chunk. -/
theorem chunk_boundary_independence (l : List Nat) :
    (feedAll [] (l.map fun b => [b])).2 = (feedAll [] [l]).2 := by
  rw [(feed_single_bytes l).1]
  rw [show feedAll [] [l] =
    ((processBuffer ([] ++ l)).1, (processBuffer ([] ++ l)).2 ++ []) from rfl]
  dsimp only
  rw [List.nil_append, List.append_nil]

/-- Prefix test on character lists: the building block of the
substring check below. -/
def leadsWith : List Char → List Char → Bool
  | [], _ => true
  | _ :: _, [] => false
  | p :: ps, c :: cs => p == c && leadsWith ps cs

/-- Contiguous-substring test on character lists, modelling the JS
String.prototype.includes used on the readUntil accumulator. -/
def containsSub (pat : List Char) : List Char → Bool
  | [] => leadsWith pat []
  | c :: rest => leadsWith pat (c :: rest) || containsSub pat rest

/-- The acknowledgement marker #OK awaited by the handshake. -/
def okChars : List Char := ['#', 'O', 'K']

/-- The accumulator bound of readUntil (src/script.js line 137): once
the accumulated text passes 20000 characters it is cut down to its
trailing 4000 characters. -/
def trimAcc (acc : List Char) : List Char :=
  if 20000 < acc.length then acc.drop (acc.length - 4000) else acc

/-- Outcome of one readUntil call: success carries the wall-clock time
at which the read containing the marker resolved; failure is the
thrown timeout-or-closed error; hang means the awaited read never
resolves, so the call never returns at all. -/
inductive ReadResult where
  | success (endTime : Nat)
  | failure
  | hang
deriving DecidableEq

/-- readUntil (src/script.js lines 122-144) over an explicit schedule
of transport reads: each entry is the wall-clock time at which the
pending read resolves, paired with the text chunk it delivers (none
models the stream reporting done).  The deadline is consulted only at
the top of the loop, i.e. only between reads: a read that resolves
after the deadline and completes the marker still returns success; a
read that resolves after the deadline without the marker falls out of
the loop and throws; a done stream breaks and throws; a transport
that never resolves leaves the await suspended forever. -/
def readUntilRun (pat : List Char) (deadline : Nat) :
    Nat → List Char → List (Nat × Option (List Char)) → ReadResult
  | now, acc, reads =>
    if now < deadline then
      match reads with
      | [] => ReadResult.hang
      | (_, none) :: _ => ReadResult.failure
      | (t, some chunk) :: rest =>
        if containsSub pat (acc ++ chunk) then ReadResult.success t
        else readUntilRun pat deadline t (trimAcc (acc ++ chunk)) rest
    else ReadResult.failure

/-- Session outcomes of the handshake: streaming (both acks seen),
failed (a readUntil throw led to disconnect), pending (an ack wait is
suspended forever because the transport delivers nothing). -/
inductive HandshakeOutcome where
  | streaming
  | failed
  | pending
deriving DecidableEq

/-- The CONFIG-then-RUN handshake of connect (src/script.js lines
291-323) in the not-initialized case: CONFIG is written at time t0 and
readUntil waits for #OK with a 200 ms deadline; on success RUN is
written and a second 200 ms wait runs from the time the first ack
read resolved; a readUntil throw tears the session down via
disconnect (failed); a wait whose transport never delivers leaves the
handshake suspended (pending). -/
def handshakeFromNotInitialized (t0 : Nat)
    (reads1 reads2 : List (Nat × Option (List Char))) : HandshakeOutcome :=
  match readUntilRun okChars (t0 + 200) t0 [] reads1 with
  | ReadResult.failure => HandshakeOutcome.failed
  | ReadResult.hang => HandshakeOutcome.pending
  | ReadResult.success t1 =>
    match readUntilRun okChars (t1 + 200) t1 [] reads2 with
    | ReadResult.failure => HandshakeOutcome.failed
    | ReadResult.hang => HandshakeOutcome.pending
    | ReadResult.success _ => HandshakeOutcome.streaming

section HandshakeLemmas

lemma rur_step (pat : List Char) (d now t : Nat) (acc chunk : List Char)
    (rest : List (Nat × Option (List Char))) (h : now < d) :
    readUntilRun pat d now acc ((t, some chunk) :: rest) =
      if containsSub pat (acc ++ chunk) then ReadResult.success t
      else readUntilRun pat d t (trimAcc (acc ++ chunk)) rest := by
  conv_lhs => unfold readUntilRun
  rw [if_pos h]

lemma rur_timeout (pat : List Char) (d now : Nat) (acc : List Char)
    (reads : List (Nat × Option (List Char))) (h : d ≤ now) :
    readUntilRun pat d now acc reads = ReadResult.failure := by
  conv_lhs => unfold readUntilRun
  rw [if_neg (by omega)]

lemma rur_hang (pat : List Char) (d now : Nat) (acc : List Char) (h : now < d) :
    readUntilRun pat d now acc [] = ReadResult.hang := by
  conv_lhs => unfold readUntilRun
  rw [if_pos h]

end HandshakeLemmas

/-- Claim C8, counterexample: a transport that delivers nothing during
the 200 ms window after CONFIG but delivers #OK at 1000 ms (to a read
that was already pending when the deadline passed) makes the session
reach streaming, not Failed — the ack wait is not a hard wall-clock
deadline. -/
theorem handshake_late_ok_counterexample :
    handshakeFromNotInitialized 0 [(1000, some okChars)] [(1001, some okChars)]
        = HandshakeOutcome.streaming
      ∧ ¬ (1000 < 0 + 200) := by
  constructor
  · rfl
  · decide

/-- Claim C8, amended: the 200 ms CONFIG-ack deadline is enforced only
between reads.  A read resolving at or after the deadline without the
marker makes the handshake Failed (session torn down); a transport
that never delivers leaves the handshake pending forever, not Failed;
and a read containing #OK succeeds no matter how late it resolves. -/
theorem handshake_deadline_semantics (t0 t t2 : Nat) (c c2 : List Char)
    (rest r2 : List (Nat × Option (List Char)))
    (hlate : t0 + 200 ≤ t) (hnook : containsSub okChars c = false)
    (hok : containsSub okChars c2 = true) :
    handshakeFromNotInitialized t0 ((t, some c) :: rest) r2 = HandshakeOutcome.failed
      ∧ handshakeFromNotInitialized t0 [] r2 = HandshakeOutcome.pending
      ∧ readUntilRun okChars (t0 + 200) t0 [] ((t2, some c2) :: rest)
        = ReadResult.success t2 := by
  refine ⟨?_, ?_, ?_⟩
  · have h1 : readUntilRun okChars (t0 + 200) t0 [] ((t, some c) :: rest)
        = ReadResult.failure := by
      rw [rur_step okChars (t0 + 200) t0 t [] c rest (by omega), List.nil_append, hnook,
        if_neg (by simp)]
      exact rur_timeout okChars (t0 + 200) t (trimAcc c) rest (by omega)
    simp only [handshakeFromNotInitialized, h1]
  · have h1 := rur_hang okChars (t0 + 200) t0 [] (by omega)
    simp only [handshakeFromNotInitialized, h1]
  · rw [rur_step okChars (t0 + 200) t0 t2 [] c2 rest (by omega), List.nil_append, hok,
      if_pos rfl]

/-- Witness for handshake_deadline_semantics: a non-marker chunk at
300 ms, the marker delivered at 999 ms. -/
theorem handshake_deadline_semantics_witness :
    handshakeFromNotInitialized 0 ((300, some ['x']) :: []) [] = HandshakeOutcome.failed
      ∧ handshakeFromNotInitialized 0 [] [] = HandshakeOutcome.pending
      ∧ readUntilRun okChars (0 + 200) 0 [] ((999, some okChars) :: [])
        = ReadResult.success 999 :=
  handshake_deadline_semantics 0 300 999 ['x'] okChars [] [] (by decide) (by decide)
    (by decide)
